import Mathlib

/-!
Shallow embedding of the text-to-structure extraction engine of
`app/pdf_pipeline.py` (helpers `_safe_float` from `app/validation.py`).

Strings are modelled as `List Char`; a text is a `List Char` that is split
into lines exactly as Python `str.splitlines` does (the common line-break
characters are covered).  Python regular expressions are modelled by
equivalent deterministic scanners; for each regex of the source the scanner
is derived by hand and the derivation is recorded in a comment.  Python
floats are modelled as rationals built with `mkRat`: every call site in the
source feeds `float()` strings made of sign/digit/comma/dot characters, so
the modelled literal grammar (optional sign, digits with an optional single
dot) agrees with Python on every string the program can produce; exponent,
inf/nan and underscore forms never arise there and are mapped to the
parse-failure case.
-/

namespace PdfPipeline

abbrev Line := List Char

/-- Python whitespace class `\s` (ASCII range), also used by `str.strip`. -/
def isPySpace (c : Char) : Bool :=
  c = ' ' || c = '\t' || c = '\n' || c = '\u000D' || c = '\u000B' || c = '\u000C'

/-- Python `str.strip()` (ASCII whitespace). -/
def pyStrip (s : List Char) : List Char :=
  ((s.dropWhile isPySpace).reverse.dropWhile isPySpace).reverse

/-- A character that ends a line for Python `str.splitlines`. -/
def isLineBreakChar (c : Char) : Bool :=
  c = '\n' || c = '\u000D' || c = '\u000B' || c = '\u000C' ||
  c = '\u001C' || c = '\u001D' || c = '\u001E' || c = '\u0085' ||
  c = '\u2028' || c = '\u2029'

/-- Worker for `splitLines`; `acc` is the current line reversed. -/
def splitLinesGo : List Char → List Char → List Line
  | [], acc => if acc = [] then [] else [acc.reverse]
  | '\u000D' :: '\n' :: rest, acc => acc.reverse :: splitLinesGo rest []
  | c :: rest, acc =>
      if isLineBreakChar c then acc.reverse :: splitLinesGo rest []
      else splitLinesGo rest (c :: acc)

/-- Python `str.splitlines`: split at line-break characters (`\r\n` counts
as one break); a trailing chunk is kept only when non-empty. -/
def splitLines (text : List Char) : List Line :=
  splitLinesGo text []

/-- First index (0-based) at which `needle` occurs in `hay`, scanning from
offset `k`; models Python `str.find` / `in`. -/
def findSubAux (needle : List Char) : List Char → Nat → Option Nat
  | [], k => if needle = [] then some k else none
  | c :: rest, k =>
      if needle.isPrefixOf (c :: rest) then some k
      else findSubAux needle rest (k + 1)

/-- Python `needle in hay` on strings. -/
def containsSub (needle hay : List Char) : Bool :=
  (findSubAux needle hay 0).isSome

/-- Python `str.lower` (ASCII, which is all the source's patterns use). -/
def pyLower (s : List Char) : List Char := s.map Char.toLower

/-- Python `str.upper` (ASCII). -/
def pyUpper (s : List Char) : List Char := s.map Char.toUpper

/-- Maximal-run tokenizer: worker returning (tokens, head-run-open flag).
`(runTokensAux p cs).1` lists the maximal runs of characters satisfying
`p`, left to right — exactly `re.findall` of the one-class-plus regexes
`[\d.]+` and `[\d,]+` of the source. -/
def pushTok (c : Char) (st : List (List Char) × Bool) : List (List Char) × Bool :=
  if st.2 then
    match st.1 with
    | [] => ([[c]], true)
    | t :: ts => ((c :: t) :: ts, true)
  else ([c] :: st.1, true)

def runTokensAux (p : Char → Bool) : List Char → List (List Char) × Bool
  | [] => ([], false)
  | c :: cs =>
      if p c then pushTok c (runTokensAux p cs)
      else ((runTokensAux p cs).1, false)

def runTokens (p : Char → Bool) (cs : List Char) : List (List Char) :=
  (runTokensAux p cs).1

/-- Character class of `[\d.]+` (numeric tokens of `_parse_price_line`). -/
def isDigitDot (c : Char) : Bool := c.isDigit || c = '.'

/-- Character class of `[\d,]+`. -/
def isDigitComma (c : Char) : Bool := c.isDigit || c = ','

/-- Digit string to natural number (`431` ↦ 431). -/
def digitsVal (ds : List Char) : Nat :=
  ds.foldl (fun n c => 10 * n + (c.toNat - ('0').toNat)) 0

/-- Python `float()` on the decimal-literal fragment of its grammar:
optional sign, then `digits [. digits]` or `. digits` (at least one digit
overall); any other string is a parse failure (`none`).  Exponent, inf/nan
and underscore forms are not modelled — no string the source hands to
`float()` contains a letter or an underscore. -/
def intPart (cs : List Char) : List Char := cs.takeWhile Char.isDigit

def fracRest (cs : List Char) : List Char := cs.drop (intPart cs).length

def pyMantissa (cs : List Char) : Option ℚ :=
  if (fracRest cs).isEmpty then
    if (intPart cs).isEmpty then none
    else some (mkRat (digitsVal (intPart cs)) 1)
  else if (fracRest cs).head? = some '.' &&
      (fracRest cs).tail.all Char.isDigit &&
      (!(intPart cs).isEmpty || !(fracRest cs).tail.isEmpty) then
    some (mkRat
      (digitsVal (intPart cs) * 10 ^ (fracRest cs).tail.length + digitsVal (fracRest cs).tail)
      (10 ^ (fracRest cs).tail.length))
  else none

def pyFloat? (cs : List Char) : Option ℚ :=
  match cs with
  | '-' :: rest => (pyMantissa rest).map (fun q => -q)
  | '+' :: rest => pyMantissa rest
  | _ => pyMantissa cs

/-- `_safe_float` of `app/validation.py` on a string argument:
strip, remove commas, parse as float, defaulting to 0 on failure. -/
def safeFloat (s : List Char) : ℚ :=
  ((pyFloat? ((pyStrip s).filter (fun c => c != ','))).getD 0)

/-- Python `int()` applied to a float: truncation toward zero. -/
def pyTruncInt (q : ℚ) : Int :=
  if 0 ≤ q then q.floor else -((-q).floor)

/-- The line as cleaned by `_parse_price_line`:
`line.replace(",", "").replace("₹", "").strip()`. -/
def priceClean (line : Line) : List Char :=
  pyStrip ((line.filter (fun c => c != ',')).filter (fun c => c != '₹'))

/-- `_parse_price_line` of `app/pdf_pipeline.py`: returns
(unit_price, qty, amount) from the numeric tokens (`[\d.]+`) of the
cleaned line. -/
def parsePriceLine (line : Line) : List Char × List Char × List Char :=
  let nums := runTokens isDigitDot (priceClean line)
  match nums with
  | a :: b :: c :: _ => (a, b, c)
  | [a, b] => (a, b, b)
  | [a] => (a, ['1'], a)
  | [] => ([], [], [])

/-- Helper: the line starts with `a`, then `\s*`, then `b` (deterministic
since the scanner classes are disjoint from `b`'s first letter). -/
def startsWithThenWs (a b l : List Char) : Bool :=
  a.isPrefixOf l && b.isPrefixOf ((l.drop a.length).dropWhile isPySpace)

/-- The totals pattern `re.match(r"^(sub\s*total|total|grand\s*total|tax)",
line, re.I)` used by both table strategies: the lowercased line starts with
one of the four alternatives, anchored at position 0 (no leading
whitespace is allowed by the pattern). -/
def totalsMatch (line : Line) : Bool :=
  let l := pyLower line
  startsWithThenWs ("sub".data) ("total".data) l ||
  ("total".data).isPrefixOf l ||
  startsWithThenWs ("grand".data) ("total".data) l ||
  ("tax".data).isPrefixOf l

/-- `re.match(r"^\s*(\d+)\s+(.+)$", line)`, the product-start pattern of
`_parse_table_multiline`; returns (group 1, group 2).  Derivation: after
`\s*` the digit run is forced maximal (the character after a shorter run
is a digit, failing `\s+`); `\s+` then takes the maximal whitespace run
and `. +` the rest, except when nothing would remain, where backtracking
leaves the run's last whitespace character as group 2. -/
def matchIntRest (line : Line) : Option (List Char × List Char) :=
  let t := line.dropWhile isPySpace
  let d := t.takeWhile Char.isDigit
  if d.isEmpty then none
  else
    match t.drop d.length with
    | [] => none
    | c :: rs =>
        if isPySpace c && !rs.isEmpty then
          let rest := (c :: rs).dropWhile isPySpace
          some (d, if rest.isEmpty then [rs.getLastD c] else rest)
        else none

/-- `\s*` then the literal `no` (for the serial-number header pattern). -/
def wsThenNo (cs : List Char) : Bool :=
  ("no".data).isPrefixOf (cs.dropWhile isPySpace)

/-- Optional `.` then `\s*` then `no`; deterministic: if the dot is present
it must be consumed, otherwise `no` would have to start at the dot. -/
def optDotWsNo (cs : List Char) : Bool :=
  match cs with
  | '.' :: rest => wsThenNo rest
  | _ => wsThenNo cs

/-- The pattern `s\.?\s*no\.?|sr\.?\s*no\.?` matches at the head of `cs`
(lowercased input; the trailing `\.?` cannot affect matching). -/
def snoAt (cs : List Char) : Bool :=
  match cs with
  | 's' :: rest =>
      optDotWsNo rest ||
      (match rest with
       | 'r' :: rest2 => optDotWsNo rest2
       | _ => false)
  | _ => false

def hasSNo : List Char → Bool
  | [] => false
  | c :: cs => snoAt (c :: cs) || hasSNo cs

/-- `re.search(r"s\.?\s*no\.?|sr\.?\s*no\.?", line, re.I)` as a Boolean. -/
def snoSearch (line : Line) : Bool := hasSNo (pyLower line)

/-- Fallback header test: `"product" in line_lower and ("qty" in ... or
"amount" in ... or "description" in ...)`. -/
def productCond (line : Line) : Bool :=
  let l := pyLower line
  containsSub ("product".data) l &&
    (containsSub ("qty".data) l || containsSub ("amount".data) l ||
     containsSub ("description".data) l)

/-- Multi-line format classification from the header line:
`"specs" in h and ("price" in h or "qty" in h) and "amount" in h`. -/
def useMultilineHeader (header : Line) : Bool :=
  let l := pyLower header
  containsSub ("specs".data) l &&
    (containsSub ("price".data) l || containsSub ("qty".data) l) &&
    containsSub ("amount".data) l

/-- `"₹" in ln or "₹" in ln` (both tests are the same character). -/
def hasGlyph (ln : Line) : Bool := ln.contains '₹'

/-- `" x " in ln.lower() or " × " in ln`. -/
def hasXMark (ln : Line) : Bool :=
  containsSub (" x ".data) (pyLower ln) || containsSub (" × ".data) ln

/-- `re.findall(r"[\d,]+", ln)`. -/
def numsDC (ln : Line) : List (List Char) := runTokens isDigitComma ln

/-- `re.search(r"^\s*[₹\s\d,.]+\s*$", ln)`: since the class includes
whitespace this holds exactly when the line is non-empty and every
character is in the class. -/
def onlyNumsLine (ln : Line) : Bool :=
  !ln.isEmpty && ln.all (fun c => c = '₹' || isPySpace c || c.isDigit || c = ',' || c = '.')

/-- `re.sub(r"[\s\d,.₹₹]", "", ln)`. -/
def strayStripped (ln : Line) : List Char :=
  ln.filter (fun c => !(isPySpace c || c.isDigit || c = ',' || c = '.' || c = '₹'))

def mostlyNums (ln : Line) : Bool :=
  (strayStripped ln).length ≤ 1 && (numsDC ln).length ≥ 2

def altPrice (ln : Line) : Bool :=
  !hasGlyph ln && (numsDC ln).length ≥ 2 && !hasXMark ln &&
    (onlyNumsLine ln || mostlyNums ln)

/-- The block line is consumed as a price line.  The source's conditional
chain is `if not is_price_line and has_x: pass; elif is_price_line or
alt_price: <price>`, and `alt_price` already requires `not has_x` and
`not is_price_line`, so the price branch fires iff glyph-or-altPrice. -/
def isPriceTaken (ln : Line) : Bool := hasGlyph ln || altPrice ln

def isXChar (c : Char) : Bool := c = 'x' || c = 'X' || c = '×'

/-- `re.match(r"^([\d\s]+[xX×]\s*[\d\s]+.*)$", ln)` as a Boolean: a
non-empty leading run of digits/whitespace (necessarily maximal, since an
x-character is outside the class), then an x-character, then `\s*[\d\s]+`,
which is satisfiable iff the next character exists and is a digit or
whitespace. -/
def dimMatchStart (ln : Line) : Bool :=
  let a := ln.takeWhile (fun c => c.isDigit || isPySpace c)
  !a.isEmpty &&
    (match ln.drop a.length with
     | c :: rest =>
         isXChar c &&
           (match rest with
            | c2 :: _ => c2.isDigit || isPySpace c2
            | [] => false)
     | [] => false)

/-- After the x alternative: `\s*\d+` is satisfiable iff a digit follows
the whitespace run. -/
def afterXDigit (r : List Char) : Bool :=
  match r.dropWhile isPySpace with
  | c :: _ => c.isDigit
  | [] => false

/-- The alternative `([xX×]|Dia\s*[xX×])` followed by `\s*\d+` (note the
pattern is applied without `re.I`, so `Dia` is matched case-sensitively). -/
def altXOrDia (r : List Char) : Bool :=
  (match r with
   | c :: rest => isXChar c && afterXDigit rest
   | [] => false) ||
  (("Dia".data).isPrefixOf r &&
    (match (r.drop 3).dropWhile isPySpace with
     | c2 :: rest2 => isXChar c2 && afterXDigit rest2
     | [] => false))

/-- `\d+\s*([xX×]|Dia\s*[xX×])\s*\d+` matches at the head of `cs`. -/
def dimPatAt (cs : List Char) : Bool :=
  let ds := cs.takeWhile Char.isDigit
  !ds.isEmpty && altXOrDia ((cs.drop ds.length).dropWhile isPySpace)

/-- `re.search` of the dimension pattern: some suffix matches. -/
def hasDimPat : List Char → Bool
  | [] => false
  | c :: cs => dimPatAt (c :: cs) || hasDimPat cs

/-- The descriptive-suffix separators of `_parse_table_multiline`,
exactly as listed in the source (note the surrounding spaces). -/
def sepList : List (List Char) :=
  [(" Base ").data, (" Top in ").data, (" Finish ").data,
   (" construction ").data, (" Internal ").data]

/-- Python `str.find`: first index or `-1`. -/
def pyFind (needle hay : List Char) : Int :=
  match findSubAux needle hay 0 with
  | some k => (k : Int)
  | none => -1

/-- One step of the separator-position fold of `_parse_table_multiline`:
`p = ln_norm.upper().find(sep.upper()); if p > 0 and (pos < 0 or p < pos):
pos = p`. -/
def sepStep (n : Line) (pos : Int) (sep : List Char) : Int :=
  let p := pyFind (pyUpper sep) (pyUpper n)
  if 0 < p ∧ (pos < 0 ∨ p < pos) then p else pos

/-- The separator-position loop, folded over the separator list with the
initial position −1. -/
def earliestSep (n : Line) : Int :=
  sepList.foldl (sepStep n) (-1)

/-- The dimension/description classification applied to a non-price,
non-totals line of a block: if no dimensions were captured yet and the
line matches a dimension pattern, split it at the earliest separator
position (when positive) into dimensions and a description fragment;
otherwise append the stripped line to the description parts. -/
def dimStep (ln : Line) (dims : List Char) (desc : List (List Char)) :
    List Char × List (List Char) :=
  if dims.isEmpty && (dimMatchStart ln || hasDimPat ln) then
    let n := pyStrip ln
    let pos := earliestSep n
    if 0 < pos then
      let tl := pyStrip (n.drop pos.toNat)
      (pyStrip (n.take pos.toNat), if tl.isEmpty then desc else desc ++ [tl])
    else (n, desc)
  else (dims, desc ++ [pyStrip ln])

/-- A parsed table row.  The Python rows are dicts; the only key that
differs between the two strategies is `description`, which the
single-line strategy never stores — hence the `Option`. -/
structure RowD where
  sr_no : List Char
  name : List Char
  description : Option (List Char)
  dimensions : List Char
  area : List Char
  material : List Char
  finish : List Char
  qty : List Char
  unit_price : List Char
  amount : List Char
deriving DecidableEq, Repr

/-- The row dict appended by `_parse_table_multiline`:
`description = " ".join(parts) if parts else ""` and `"qty": qty or "1"`. -/
def mkRowMulti (sr nm dims : List Char) (desc : List (List Char))
    (price : List Char × List Char × List Char) : RowD :=
  { sr_no := sr, name := nm,
    description := some (List.intercalate ([' ']) desc),
    dimensions := dims, area := [], material := [], finish := [],
    qty := if price.2.1.isEmpty then ['1'] else price.2.1,
    unit_price := price.1, amount := price.2.2 }

/-- State of the multi-line block scanner: between blocks, or inside the
block opened for serial number `sr` and name `nm` with the dimension and
description accumulators. -/
inductive MState where
  | scan : MState
  | inBlock (sr nm dims : List Char) (desc : List (List Char)) : MState

/-- `_parse_table_multiline`'s nested while loops, written as the state
machine they implement, one line per step.  The correspondences with the
source control flow: a totals line seen inside a block exits the inner
loop by `break` and then falls through to `rows.append(...)` before the
outer loop re-reads the same line and stops — hence the `inBlock`/totals
case appends the current block (with empty price fields) and returns,
scanning nothing further.  A price line finalizes the block and resumes
scanning after it; end of input finalizes an open block; every other line
inside a block goes through the dimension/description classification. -/
def multiGo : List Line → MState → List RowD
  | [], .scan => []
  | [], .inBlock sr nm dims desc => [mkRowMulti sr nm dims desc ([], [], [])]
  | ln :: rest, .scan =>
      if totalsMatch ln then []
      else
        match matchIntRest ln with
        | some (sr, nm) => multiGo rest (.inBlock sr (pyStrip nm) [] [])
        | none => multiGo rest .scan
  | ln :: rest, .inBlock sr nm dims desc =>
      if totalsMatch ln then [mkRowMulti sr nm dims desc ([], [], [])]
      else if isPriceTaken ln then
        mkRowMulti sr nm dims desc (parsePriceLine ln) :: multiGo rest .scan
      else
        match dimStep ln dims desc with
        | (d2, ds2) => multiGo rest (.inBlock sr nm d2 ds2)

/-- `_parse_table_multiline(lines, header_idx)`. -/
def parseTableMultiline (lines : List Line) (headerIdx : Nat) : List RowD :=
  multiGo (lines.drop (headerIdx + 1)) .scan

/-- `re.split(r"\s+", line)`: separators are maximal whitespace runs; a
leading or trailing run produces an empty field.  The state is `some acc`
while building a field (reversed), `none` while inside a separator run. -/
def splitWs1Go : List Char → Option (List Char) → List (List Char)
  | [], some acc => [acc.reverse]
  | [], none => [[]]
  | c :: cs, some acc =>
      if isPySpace c then acc.reverse :: splitWs1Go cs none
      else splitWs1Go cs (some (c :: acc))
  | c :: cs, none =>
      if isPySpace c then splitWs1Go cs none
      else splitWs1Go cs (some [c])

def splitWs1 (cs : List Char) : List (List Char) := splitWs1Go cs (some [])

/-- `re.split(r"\s{2,}|\t", line)`: a separator is a maximal whitespace
run of length at least 2 (the first alternative, tried first and greedy),
or an isolated tab; a single non-tab whitespace character stays inside
the field. -/
def splitWs2Go : List Char → Option (List Char) → List (List Char)
  | [], some acc => [acc.reverse]
  | [], none => [[]]
  | c :: cs, none =>
      if isPySpace c then splitWs2Go cs none
      else splitWs2Go cs (some [c])
  | c :: cs, some acc =>
      if isPySpace c then
        match cs with
        | [] => if c = '\t' then [acc.reverse, []] else [(c :: acc).reverse]
        | c2 :: _ =>
            if isPySpace c2 then acc.reverse :: splitWs2Go cs none
            else if c = '\t' then acc.reverse :: splitWs2Go cs (some [])
            else splitWs2Go cs (some (c :: acc))
      else splitWs2Go cs (some (c :: acc))

def splitWs2 (cs : List Char) : List (List Char) := splitWs2Go cs (some [])

/-- `_parts_for_line` of `_parse_table_from_text`. -/
def partsForLine (line : Line) : List (List Char) :=
  let parts := splitWs2 line
  if parts.length ≥ 3 then parts
  else
    let parts2 := splitWs1 line
    if parts2.length > 9 then parts2.take 9 else parts2

/-- `_normalize(parts[k]) if len(parts) > k else ""`; stripping the
default empty string is the identity, so one formula covers both. -/
def partGet (parts : List (List Char)) (k : Nat) : List Char :=
  pyStrip (parts.getD k [])

/-- The positionally-mapped row dict of the single-line strategy. -/
def mkRowSingle (parts : List (List Char)) : RowD :=
  { sr_no := partGet parts 0, name := partGet parts 1, description := none,
    dimensions := partGet parts 2, area := partGet parts 3,
    material := partGet parts 4, finish := partGet parts 5,
    qty := partGet parts 6, unit_price := partGet parts 7,
    amount := partGet parts 8 }

/-- `re.match(r"^\d+\.?\d*$", s)`: digits, then optionally a dot followed
by digits only (backtracking cannot rescue a failure, as analysed for the
other digit patterns). -/
def srNoNumeric (s : List Char) : Bool :=
  let d := s.takeWhile Char.isDigit
  !d.isEmpty &&
    (match s.drop d.length with
     | [] => true
     | '.' :: fr => fr.all Char.isDigit
     | _ => false)

/-- The row loop of the single-line strategy: stop at a totals line, skip
lines with fewer than two parts, skip rows with a non-empty sr_no that is
not a plain integer-or-decimal string (`if row["sr_no"] and not
re.match(...)`: an empty sr_no is falsy and the row is kept). -/
def singleRows : List Line → List RowD
  | [] => []
  | ln :: rest =>
      if totalsMatch ln then []
      else
        let parts := partsForLine ln
        if parts.length < 2 then singleRows rest
        else
          let row := mkRowSingle parts
          if !row.sr_no.isEmpty && !srNoNumeric row.sr_no then singleRows rest
          else row :: singleRows rest

/-- The line list used by `_parse_table_from_text`: non-blank lines of the
text, kept unstripped. -/
def tableLines (text : List Char) : List Line :=
  (splitLines text).filter (fun l => !(pyStrip l).isEmpty)

/-- Table-header search: first line matching the serial-number pattern,
else first line satisfying the product fallback. -/
def headerIdx? (lns : List Line) : Option Nat :=
  match lns.findIdx? (fun l => snoSearch l) with
  | some i => some i
  | none => lns.findIdx? (fun l => productCond l)

/-- `_parse_table_from_text`. -/
def parseTableFromText (text : List Char) : List RowD :=
  let lns := tableLines text
  match headerIdx? lns with
  | none => []
  | some i =>
      if useMultilineHeader (lns.getD i []) then multiGo (lns.drop (i + 1)) .scan
      else singleRows (lns.drop (i + 1))

/-- Whether `_parse_table_from_text` takes the multi-line branch. -/
def usesMultiline (text : List Char) : Bool :=
  match headerIdx? (tableLines text) with
  | none => false
  | some i => useMultilineHeader ((tableLines text).getD i [])

structure TotalsD where
  subtotal : ℚ
  tax : ℚ
  grand_total : ℚ
deriving DecidableEq, Repr

/-- `re.findall(r"[\d,]+\.?\d*", line)` as a left-to-right scanner.  The
state is `none` outside a token, `some (t, false)` inside the `[\d,]+`
part (token chars reversed in `t`), `some (t, true)` after the optional
dot in the `\d*` part.  A match can only start at a digit-or-comma; after
a completed match scanning resumes at the next character, which may
immediately start a new token (e.g. `1.2,3` yields `1.2` and `,3`). -/
def totTokensGo : List Char → Option (List Char × Bool) → List (List Char)
  | [], none => []
  | [], some (t, _) => [t.reverse]
  | c :: cs, none =>
      if isDigitComma c then totTokensGo cs (some ([c], false))
      else totTokensGo cs none
  | c :: cs, some (t, false) =>
      if isDigitComma c then totTokensGo cs (some (c :: t, false))
      else if c = '.' then totTokensGo cs (some (c :: t, true))
      else t.reverse :: totTokensGo cs none
  | c :: cs, some (t, true) =>
      if c.isDigit then totTokensGo cs (some (c :: t, true))
      else if isDigitComma c then t.reverse :: totTokensGo cs (some ([c], false))
      else t.reverse :: totTokensGo cs none

def totTokens (line : Line) : List (List Char) := totTokensGo line none

/-- Python `\w` (ASCII fragment). -/
def isWordChar (c : Char) : Bool := c.isAlphanum || c = '_'

/-- `re.match(r"^tax\b", line_lower)`: the literal `tax` at position 0
followed by a word boundary (end of line or a non-word character). -/
def taxMatch (l : List Char) : Bool :=
  ("tax".data).isPrefixOf l &&
    (match l.drop 3 with
     | [] => true
     | c :: _ => !isWordChar c)

/-- One line of `_parse_totals_from_text`: three independent `if`s, each
overwriting its field with the float value of the line's last numeric
token when the line matches and has at least one numeric token. -/
def totalsStep (acc : TotalsD) (line : Line) : TotalsD :=
  let ll := pyLower line
  let nums := totTokens line
  let a1 :=
    if containsSub ("sub".data) ll && containsSub ("total".data) ll then
      match nums.getLast? with
      | some t => { acc with subtotal := safeFloat t }
      | none => acc
    else acc
  let a2 :=
    if taxMatch ll then
      match nums.getLast? with
      | some t => { a1 with tax := safeFloat t }
      | none => a1
    else a1
  if containsSub ("grand".data) ll && containsSub ("total".data) ll then
    match nums.getLast? with
    | some t => { a2 with grand_total := safeFloat t }
    | none => a2
  else a2

/-- `_parse_totals_from_text`: iterates over the raw (unstripped,
unfiltered) lines of the text. -/
def parseTotals (text : List Char) : TotalsD :=
  (splitLines text).foldl totalsStep { subtotal := 0, tax := 0, grand_total := 0 }

/-- The anchor labels of `_parse_header_from_text`, in source order. -/
def headerAnchors : List (List Char) :=
  [("project name").data, ("client name").data, ("quotation no").data,
   ("quotation no.").data, ("date").data, ("prepared by").data]

/-- `anchor.replace(" ", "_").replace(".", "")`. -/
def anchorKey (a : List Char) : List Char :=
  (a.map (fun c => if c = ' ' then '_' else c)).filter (fun c => c != '.')

/-- The header dict, modelled as a map from key to optional value
(assignment overwrites; iteration order of the dict is never used). -/
abbrev HeaderMap := List Char → Option (List Char)

def dictSet (d : HeaderMap) (k v : List Char) : HeaderMap :=
  fun x => if x = k then some v else d x

def emptyHeader : HeaderMap := fun _ => none

/-- `next_line.lower().startswith(("s.no", "sr no", "product"))`. -/
def nextLineLooksTable (nl : List Char) : Bool :=
  let l := pyLower nl
  ("s.no".data).isPrefixOf l || ("sr no".data).isPrefixOf l ||
  ("product".data).isPrefixOf l

/-- The per-line capture of `_parse_header_from_text`: the first anchor
(in list order) contained in the lowercased line wins and the anchor loop
`break`s; the value is the rest of the same line after the anchor
(stripped, a leading run of `:` removed), or the next non-empty stripped
line when the rest is empty and the next line does not look like the
table start.  `none` when the line contains no anchor or captures no
value. -/
def anchorRest (line : Line) (a : List Char) : List Char :=
  pyStrip ((pyStrip (line.drop ((findSubAux a (pyLower line) 0).getD 0 + a.length))).dropWhile
    (fun c => c = ':'))

def headerCapture (line : Line) (next? : Option Line) :
    Option (List Char × List Char) :=
  match headerAnchors.find? (fun a => containsSub a (pyLower line)) with
  | none => none
  | some a =>
      if !(anchorRest line a).isEmpty then some (anchorKey a, anchorRest line a)
      else
        match next? with
        | some nl0 =>
            if !(pyStrip nl0).isEmpty && !nextLineLooksTable (pyStrip nl0) then
              some (anchorKey a, pyStrip nl0)
            else none
        | none => none

def headerStep (line : Line) (next? : Option Line) (d : HeaderMap) : HeaderMap :=
  match headerCapture line next? with
  | some kv => dictSet d kv.1 kv.2
  | none => d

def headerLoop : List Line → HeaderMap → HeaderMap
  | [], d => d
  | l :: rest, d => headerLoop rest (headerStep l rest.head? d)

/-- The line list of `_parse_header_from_text`: stripped non-blank lines. -/
def headerLines (text : List Char) : List Line :=
  (splitLines text).filterMap
    (fun l => let s := pyStrip l; if s.isEmpty then none else some s)

/-- `_parse_header_from_text`. -/
def parseHeaderFromText (text : List Char) : HeaderMap :=
  headerLoop (headerLines text) emptyHeader

abbrev Img := List Char

structure ProductD where
  sr_no : Int
  name : List Char
  description : List Char
  dimensions : List Char
  area : List Char
  material : List Char
  finish : List Char
  qty : Int
  unit_price : ℚ
  amount : ℚ
  images : List Img
deriving DecidableEq, Repr

structure ProjectD where
  project_name : List Char
  client_name : List Char
  quotation_no : List Char
  date : List Char
  prepared_by : List Char
deriving DecidableEq, Repr

structure SQData where
  project : ProjectD
  products : List ProductD
  summary : TotalsD
  extracted_images : List Img
deriving DecidableEq, Repr

/-- `image_offset = max(0, num_images - num_products)`. -/
def imageOffset (numImages numProducts : Nat) : Nat :=
  (max 0 ((numImages : Int) - (numProducts : Int))).toNat

/-- `[extracted_images[idx]] if idx < len(extracted_images) else []`. -/
def rowImages (imgs : List Img) (idx : Nat) : List Img :=
  match imgs[idx]? with
  | some b => [b]
  | none => []

/-- The `Product(...)` built for enumerate index `i` inside
`parse_pdf_to_structured_data`. -/
def mkProduct (i : Nat) (row : RowD) (pimgs : List Img) : ProductD :=
  { sr_no := (let s := pyTruncInt (safeFloat row.sr_no)
              if s = 0 then (i : Int) + 1 else s),
    name := row.name,
    description := row.description.getD row.name,
    dimensions := row.dimensions, area := row.area,
    material := row.material, finish := row.finish,
    qty := pyTruncInt (safeFloat row.qty),
    unit_price := safeFloat row.unit_price,
    amount := safeFloat row.amount,
    images := pimgs }

def buildProductsGo (imgs : List Img) (off : Nat) : Nat → List RowD → List ProductD
  | _, [] => []
  | i, row :: rest =>
      mkProduct i row (rowImages imgs (off + i)) :: buildProductsGo imgs off (i + 1) rest

/-- The product-building loop of `parse_pdf_to_structured_data`. -/
def buildProducts (imgs : List Img) (rows : List RowD) : List ProductD :=
  buildProductsGo imgs (imageOffset imgs.length rows.length) 0 rows

def hget (h : HeaderMap) (k : List Char) : List Char := (h k).getD []

/-- `parse_pdf_to_structured_data` from its two external inputs onward:
the extracted text and the extracted image sequence (PDF byte handling is
outside the core, per the spec's interface boundary). -/
def parsePipeline (text : List Char) (imgs : List Img) : SQData :=
  let header := parseHeaderFromText text
  let rows := parseTableFromText text
  let totals := parseTotals text
  { project := { project_name := hget header (("project_name").data),
                 client_name := hget header (("client_name").data),
                 quotation_no := hget header (("quotation_no").data),
                 date := hget header (("date").data),
                 prepared_by := hget header (("prepared_by").data) },
    products := buildProducts imgs rows,
    summary := { subtotal := totals.subtotal, tax := totals.tax,
                 grand_total := totals.grand_total },
    extracted_images := imgs }

/-- Spec-written mirror for the amended C5: the value recalled for a key
is the one captured by the last line whose capture targets that key
(later lines take precedence), `none` when no line captures it. -/
def lastCaptureSpec : List Line → List Char → Option (List Char)
  | [], _ => none
  | l :: rest, k =>
      match lastCaptureSpec rest k with
      | some v => some v
      | none =>
          match headerCapture l rest.head? with
          | some kv => if kv.1 = k then some kv.2 else none
          | none => none

/-- Spec-side capture for the subtotal category: a line containing both
`sub` and `total` with at least one numeric token captures the float
value of its last numeric token. -/
def subCapture (line : Line) : Option ℚ :=
  if containsSub ("sub".data) (pyLower line) && containsSub ("total".data) (pyLower line) then
    (totTokens line).getLast?.map safeFloat
  else none

/-- Spec-side capture for the tax category (word-anchored `tax`). -/
def taxCapture (line : Line) : Option ℚ :=
  if taxMatch (pyLower line) then (totTokens line).getLast?.map safeFloat
  else none

/-- Spec-side capture for the grand-total category. -/
def grandCapture (line : Line) : Option ℚ :=
  if containsSub ("grand".data) (pyLower line) && containsSub ("total".data) (pyLower line) then
    (totTokens line).getLast?.map safeFloat
  else none

/-- Spec-written mirror of last-match-wins: the value of the last line
captured by `f`, if any. -/
def lastTotSpec (f : Line → Option ℚ) : List Line → Option ℚ
  | [] => none
  | l :: rest =>
      match lastTotSpec f rest with
      | some v => some v
      | none => f l


/-- Character class of the totals-token pattern `[\d,]+\.?\d*`. -/
def isTotChar (c : Char) : Bool := c.isDigit || c = ',' || c = '.'

/-- The price-derived fields of a row hold only digit/dot characters (in
particular no sign). -/
def rowPriceOk (r : RowD) : Prop :=
  (∀ c ∈ r.qty, isDigitDot c = true) ∧
  (∀ c ∈ r.unit_price, isDigitDot c = true) ∧
  (∀ c ∈ r.amount, isDigitDot c = true)

/-- C2: for every input line, the price-line parser returns the triple
determined solely by the count of numeric tokens (after stripping commas
and currency glyphs): three or more tokens give (t0, t1, t2); exactly two
tokens (a, b) give unit_price = a, qty = b, amount = b (amount mirrors
qty); exactly one token a gives unit_price = amount = a, qty = "1"; zero
tokens give three empty strings. -/
theorem price_triple_by_token_count (line : Line) :
    ((runTokens isDigitDot (priceClean line)).length ≥ 3 →
      parsePriceLine line =
        ((runTokens isDigitDot (priceClean line)).getD 0 [],
         (runTokens isDigitDot (priceClean line)).getD 1 [],
         (runTokens isDigitDot (priceClean line)).getD 2 [])) ∧
    (∀ a b, runTokens isDigitDot (priceClean line) = [a, b] →
      parsePriceLine line = (a, b, b)) ∧
    (∀ a, runTokens isDigitDot (priceClean line) = [a] →
      parsePriceLine line = (a, ['1'], a)) ∧
    (runTokens isDigitDot (priceClean line) = [] →
      parsePriceLine line = ([], [], [])) := by
  unfold parsePriceLine
  rcases h : runTokens isDigitDot (priceClean line) with _ | ⟨a, _ | ⟨b, _ | ⟨c, t⟩⟩⟩ <;>
    simp [h]

/-- Witness for the price-triple theorem at the sample line of the source
comment, `₹ 7,302 1 ₹7,302`. -/
theorem price_triple_witness :
    parsePriceLine (("₹ 7,302 1 ₹7,302").data) =
      ((runTokens isDigitDot (priceClean (("₹ 7,302 1 ₹7,302").data))).getD 0 [],
       (runTokens isDigitDot (priceClean (("₹ 7,302 1 ₹7,302").data))).getD 1 [],
       (runTokens isDigitDot (priceClean (("₹ 7,302 1 ₹7,302").data))).getD 2 []) :=
  (price_triple_by_token_count _).1 (by decide)

/-- C9: the three text-to-structure parsing functions are pure functions
of the input text — equal inputs give identical header mappings, row
lists and totals. -/
theorem parse_functions_deterministic (t1 t2 : List Char) (h : t1 = t2) :
    parseHeaderFromText t1 = parseHeaderFromText t2 ∧
    parseTableFromText t1 = parseTableFromText t2 ∧
    parseTotals t1 = parseTotals t2 := by
  subst h; exact ⟨rfl, rfl, rfl⟩

/-- Witness for determinism at a concrete text. -/
theorem parse_functions_deterministic_witness :
    parseHeaderFromText (("Date: 1/1").data) = parseHeaderFromText (("Date: 1/1").data) ∧
    parseTableFromText (("Date: 1/1").data) = parseTableFromText (("Date: 1/1").data) ∧
    parseTotals (("Date: 1/1").data) = parseTotals (("Date: 1/1").data) :=
  parse_functions_deterministic _ _ rfl

/-- C10: a header line updates the mapping for at most one anchor — the
first anchor of the fixed source-ordered list whose label occurs in the
line; every other key keeps its previous value, so further anchor labels
on the same line are ignored. -/
theorem headerCapture_key (line : Line) (next? : Option Line) (a : List Char)
    (hfind : headerAnchors.find? (fun x => containsSub x (pyLower line)) = some a) :
    ∀ kv, headerCapture line next? = some kv → kv.1 = anchorKey a := by
  intro kv hkv
  unfold headerCapture at hkv
  rw [hfind] at hkv
  dsimp only at hkv
  split at hkv
  · cases hkv; rfl
  · split at hkv
    · split at hkv
      · cases hkv; rfl
      · cases hkv
    · cases hkv

theorem header_line_single_anchor (line : Line) (next? : Option Line) (d : HeaderMap) :
    (headerAnchors.find? (fun a => containsSub a (pyLower line)) = none →
      headerStep line next? d = d) ∧
    (∀ a, headerAnchors.find? (fun a => containsSub a (pyLower line)) = some a →
      ∀ k, k ≠ anchorKey a → headerStep line next? d k = d k) := by
  constructor
  · intro hnone
    unfold headerStep headerCapture
    rw [hnone]
  · intro a hfind k hk
    unfold headerStep
    cases hc : headerCapture line next? with
    | none => rfl
    | some kv =>
        have hkey := headerCapture_key line next? a hfind kv hc
        simp [dictSet, hkey, hk]

/-- Witness: on a line containing both the "project name" and "date"
anchors, the "date" key is untouched — only the first anchor captures. -/
theorem header_line_single_anchor_witness :
    headerStep (("Project Name: A and Date: B").data) none emptyHeader (("date").data) =
      emptyHeader (("date").data) :=
  (header_line_single_anchor _ none emptyHeader).2 (("project name").data)
    (by decide) (("date").data) (by decide)

theorem rowImages_eq_toList (imgs : List Img) (idx : Nat) :
    rowImages imgs idx = (imgs[idx]?).toList := by
  unfold rowImages
  cases imgs[idx]? <;> rfl

theorem buildProductsGo_getElem (imgs : List Img) (off : Nat) (rows : List RowD) :
    ∀ (i k : Nat),
      (buildProductsGo imgs off i rows)[k]? =
        (rows[k]?).map (fun row => mkProduct (i + k) row (rowImages imgs (off + i + k))) := by
  induction rows with
  | nil => intro i k; simp [buildProductsGo]
  | cons row rest ih =>
      intro i k
      cases k with
      | zero => simp [buildProductsGo]
      | succ k =>
          have h1 : i + 1 + k = i + (k + 1) := by omega
          have h2 : off + (i + 1) + k = off + i + (k + 1) := by omega
          simp only [buildProductsGo, List.getElem?_cons_succ, ih (i + 1) k, h1, h2]

/-- C4: with offset = max(0, N − M), the item at 0-based position i of the
assembled product list carries exactly the single image at index
offset + i when that index is in range, and no image otherwise
(`Option.toList` of the lookup is `[image]` in range and `[]` out of
range); no item ever carries more than one image. -/
theorem image_alignment (imgs : List Img) (rows : List RowD) (i : Nat)
    (h : i < rows.length) :
    ∃ p, (buildProducts imgs rows)[i]? = some p ∧
      p.images = (imgs[imageOffset imgs.length rows.length + i]?).toList ∧
      p.images.length ≤ 1 := by
  unfold buildProducts
  rw [buildProductsGo_getElem imgs (imageOffset imgs.length rows.length) rows 0 i]
  rcases hr : rows[i]? with _ | row
  · rw [List.getElem?_eq_none_iff] at hr; omega
  · refine ⟨_, rfl, ?_, ?_⟩
    · simp [mkProduct, rowImages_eq_toList]
    · simp only [mkProduct]
      rw [rowImages_eq_toList]
      cases imgs[imageOffset imgs.length rows.length + 0 + i]? <;> simp

/-- Witness for the alignment theorem at the spec's example shape: five
images and three items, item 0 receiving image index 2. -/
theorem image_alignment_witness :
    ∃ p, (buildProducts
        [("i0").data, ("i1").data, ("i2").data, ("i3").data, ("i4").data]
        [(⟨['1'], [], none, [], [], [], [], [], [], []⟩ : RowD),
         (⟨['2'], [], none, [], [], [], [], [], [], []⟩ : RowD),
         (⟨['3'], [], none, [], [], [], [], [], [], []⟩ : RowD)])[0]? = some p ∧
      p.images =
        (([("i0").data, ("i1").data, ("i2").data, ("i3").data, ("i4").data])[imageOffset 5 3 + 0]?).toList ∧
      p.images.length ≤ 1 :=
  image_alignment _ _ 0 (by decide)


theorem lastCaptureSpec_cons (l : Line) (rest : List Line) (k : List Char) :
    lastCaptureSpec (l :: rest) k =
      match lastCaptureSpec rest k with
      | some v => some v
      | none =>
          match headerCapture l rest.head? with
          | some kv => if kv.1 = k then some kv.2 else none
          | none => none := rfl

theorem headerLoop_lastCapture (ls : List Line) :
    ∀ (d : HeaderMap) (k : List Char),
      headerLoop ls d k =
        match lastCaptureSpec ls k with
        | some v => some v
        | none => d k := by
  induction ls with
  | nil => intro d k; rfl
  | cons l rest ih =>
      intro d k
      show headerLoop rest (headerStep l rest.head? d) k = _
      rw [ih, lastCaptureSpec_cons]
      cases hlc : lastCaptureSpec rest k with
      | some v => rfl
      | none =>
          unfold headerStep
          cases hc : headerCapture l rest.head? with
          | none => rfl
          | some kv =>
              dsimp only
              unfold dictSet
              by_cases hk : kv.1 = k
              · rw [if_pos hk, if_pos hk.symm]
              · rw [if_neg hk, if_neg (Ne.symm hk)]

/-- Amended C5: when several lines match a header anchor, the captured
value is the one from the LAST line whose capture targets the anchor's
key (a matching line that captures no value leaves the previous value in
place); an anchor key captured by no line yields no value (hence the
empty string in the assembled header). -/
theorem header_last_capture_wins (text : List Char) (k : List Char) :
    parseHeaderFromText text k = lastCaptureSpec (headerLines text) k := by
  unfold parseHeaderFromText
  rw [headerLoop_lastCapture]
  cases lastCaptureSpec (headerLines text) k <;> rfl

/-- Counterexample to C5 as stated: in `Date: A⏎Date: B` both lines match
the `date` anchor — the first captures `A` — yet the header value is `B`,
so the first match does not win. -/
theorem header_first_match_cx :
    headerCapture (("Date: A").data) (some (("Date: B").data)) =
      some ((("date").data, ("A").data)) ∧
    parseHeaderFromText (("Date: A\nDate: B").data) (("date").data) =
      some (("B").data) ∧
    (("B").data) ≠ (("A").data) := by decide


theorem lastTotSpec_cons_getD (f : Line → Option ℚ) (l : Line) (rest : List Line) (a : ℚ) :
    (lastTotSpec f (l :: rest)).getD a = (lastTotSpec f rest).getD ((f l).getD a) := by
  show (match lastTotSpec f rest with
        | some v => some v
        | none => f l).getD a = _
  cases lastTotSpec f rest <;> cases hf : f l <;> simp [hf]

theorem totalsStep_eq (acc : TotalsD) (line : Line) :
    totalsStep acc line =
      { subtotal := (subCapture line).getD acc.subtotal,
        tax := (taxCapture line).getD acc.tax,
        grand_total := (grandCapture line).getD acc.grand_total } := by
  unfold totalsStep subCapture taxCapture grandCapture
  rcases hl : (totTokens line).getLast? with _ | t <;>
  rcases h1 : (containsSub ("sub".data) (pyLower line) &&
      containsSub ("total".data) (pyLower line)) with _ | _ <;>
  rcases h2 : taxMatch (pyLower line) with _ | _ <;>
  rcases h3 : (containsSub ("grand".data) (pyLower line) &&
      containsSub ("total".data) (pyLower line)) with _ | _ <;>
  simp [h1, h2, h3, hl]

theorem totalsFold (lns : List Line) :
    ∀ acc : TotalsD,
      lns.foldl totalsStep acc =
        { subtotal := (lastTotSpec subCapture lns).getD acc.subtotal,
          tax := (lastTotSpec taxCapture lns).getD acc.tax,
          grand_total := (lastTotSpec grandCapture lns).getD acc.grand_total } := by
  induction lns with
  | nil => intro acc; rfl
  | cons l rest ih =>
      intro acc
      rw [List.foldl_cons, ih, totalsStep_eq,
        lastTotSpec_cons_getD, lastTotSpec_cons_getD, lastTotSpec_cons_getD]

/-- Amended C7: subtotal comes from the last line containing both "sub"
and "total" that has a numeric token; grand_total likewise for
"grand"/"total"; tax comes from the last line beginning with the word
`tax` (the literal followed by a word boundary, not any line merely
starting with the letters `tax`); matching lines without numeric tokens
leave the value unchanged; categories with no capturing line yield 0. -/
theorem totals_last_match_wins (text : List Char) :
    (parseTotals text).subtotal = (lastTotSpec subCapture (splitLines text)).getD 0 ∧
    (parseTotals text).tax = (lastTotSpec taxCapture (splitLines text)).getD 0 ∧
    (parseTotals text).grand_total = (lastTotSpec grandCapture (splitLines text)).getD 0 := by
  unfold parseTotals
  rw [totalsFold]
  exact ⟨rfl, rfl, rfl⟩

/-- Counterexample to C7 as stated: `taxi 5` begins with the characters
`tax` and its last numeric token is 5, yet the extractor leaves tax at 0
(the source anchors `tax` with a word boundary). -/
theorem totals_tax_prefix_cx :
    (("tax").data).isPrefixOf (pyLower (("taxi 5").data)) = true ∧
    (totTokens (("taxi 5").data)).getLast?.map safeFloat = some 5 ∧
    (parseTotals (("taxi 5").data)).tax = 0 ∧ (0 : ℚ) ≠ 5 := by decide

theorem singleRows_cons (ln : Line) (rest : List Line) :
    singleRows (ln :: rest) =
      if totalsMatch ln then []
      else if (partsForLine ln).length < 2 then singleRows rest
      else if !(mkRowSingle (partsForLine ln)).sr_no.isEmpty &&
              !srNoNumeric (mkRowSingle (partsForLine ln)).sr_no then singleRows rest
      else mkRowSingle (partsForLine ln) :: singleRows rest := rfl

theorem singleRows_stop (ls : List Line) :
    singleRows ls = singleRows (ls.takeWhile (fun l => !totalsMatch l)) := by
  induction ls with
  | nil => rfl
  | cons l rest ih =>
      by_cases h : totalsMatch l
      · rw [List.takeWhile_cons, if_neg (by simp [h])]
        rw [singleRows_cons, if_pos h]
        rfl
      · rw [List.takeWhile_cons, if_pos (by simp [h])]
        rw [singleRows_cons, singleRows_cons, if_neg h, if_neg h, ih]

theorem singleRows_srno (ls : List Line) :
    ∀ r ∈ singleRows ls, r.sr_no = [] ∨ srNoNumeric r.sr_no = true := by
  induction ls with
  | nil => intro r hr; cases hr
  | cons l rest ih =>
      intro r hr
      rw [singleRows_cons] at hr
      split at hr
      · cases hr
      · split at hr
        · exact ih r hr
        · split at hr
          · exact ih r hr
          · rcases List.mem_cons.mp hr with hr | hr
            · subst hr
              next hcond _ =>
                rcases he : (mkRowSingle (partsForLine l)).sr_no.isEmpty with _ | _
                · right
                  by_contra hn
                  exact hcond (by simp_all)
                · left
                  exact List.isEmpty_iff.mp he
            · exact ih r hr

/-- Amended C6: in the single-line strategy scanning stops at the first
line matching the totals pattern (rows depend only on the prefix before
it), and every emitted row's sr_no token is either empty or a plain
integer-or-decimal string — rows with a non-empty sr_no outside that form
are skipped, but rows whose sr_no token is empty are kept. -/
theorem single_line_stop_and_srno (ls : List Line) :
    singleRows ls = singleRows (ls.takeWhile (fun l => !totalsMatch l)) ∧
    ∀ r ∈ singleRows ls, r.sr_no = [] ∨ srNoNumeric r.sr_no = true :=
  ⟨singleRows_stop ls, singleRows_srno ls⟩

/-- Witness for the single-line theorem on a concrete one-row table. -/
theorem single_line_stop_and_srno_witness :
    (mkRowSingle (partsForLine (("1  Chair  5").data))).sr_no = [] ∨
      srNoNumeric (mkRowSingle (partsForLine (("1  Chair  5").data))).sr_no = true :=
  (single_line_stop_and_srno [("1  Chair  5").data]).2 _ (by decide)

/-- Counterexample to C6 as stated: the data line begins with a
two-space run, so the first split token is empty; the row is emitted with
an empty sr_no token, which is not an integer-or-decimal string. -/
theorem single_line_empty_srno_cx :
    (parseTableFromText (("S.No Name Qty\n  Chair  Wood").data)).map (fun r => r.sr_no) = [[]] ∧
    srNoNumeric [] = false := by decide

theorem multiGo_scan_cons (ln : Line) (rest : List Line) :
    multiGo (ln :: rest) .scan =
      if totalsMatch ln then []
      else
        match matchIntRest ln with
        | some (sr, nm) => multiGo rest (.inBlock sr (pyStrip nm) [] [])
        | none => multiGo rest .scan := rfl

theorem multiGo_inBlock_cons (ln : Line) (rest : List Line) (sr nm dims : List Char)
    (desc : List (List Char)) :
    multiGo (ln :: rest) (.inBlock sr nm dims desc) =
      if totalsMatch ln then [mkRowMulti sr nm dims desc ([], [], [])]
      else if isPriceTaken ln then
        mkRowMulti sr nm dims desc (parsePriceLine ln) :: multiGo rest .scan
      else multiGo rest (.inBlock sr nm (dimStep ln dims desc).1 (dimStep ln dims desc).2) := rfl

theorem multiGo_block_totals (body : List Line) :
    ∀ (dims : List Char) (desc : List (List Char)) (sr nm : List Char)
      (t : Line) (rest : List Line),
      (∀ l ∈ body, totalsMatch l = false ∧ isPriceTaken l = false) →
      totalsMatch t = true →
      multiGo (body ++ t :: rest) (.inBlock sr nm dims desc) =
        [mkRowMulti sr nm
          (body.foldl (fun p ln => dimStep ln p.1 p.2) (dims, desc)).1
          (body.foldl (fun p ln => dimStep ln p.1 p.2) (dims, desc)).2
          ([], [], [])] := by
  induction body with
  | nil =>
      intro dims desc sr nm t rest _ ht
      rw [List.nil_append, multiGo_inBlock_cons, if_pos ht]
      rfl
  | cons b bs ih =>
      intro dims desc sr nm t rest hsafe ht
      have hb := hsafe b (List.mem_cons_self b bs)
      rw [List.cons_append, multiGo_inBlock_cons, if_neg (by simp [hb.1]),
        if_neg (by simp [hb.2]),
        ih _ _ sr nm t rest (fun l hl => hsafe l (List.mem_cons_of_mem b hl)) ht]
      rfl

/-- Amended C1: in the multi-line block strategy, when a totals line is
reached while a block is open, the current block IS appended to the row
list — with empty unit_price and amount and qty defaulting to "1" — and
scanning stops, so no subsequent line (whatever it contains) contributes
any further row.  (The claim's statement that such a block is dropped is
refuted by `multiline_totals_block_kept_cx`.) -/
theorem multiline_block_closed_by_totals (start : Line) (sr nm : List Char)
    (body : List Line) (t : Line) (rest : List Line)
    (hstart : matchIntRest start = some (sr, nm))
    (hst : totalsMatch start = false)
    (hbody : ∀ l ∈ body, totalsMatch l = false ∧ isPriceTaken l = false)
    (ht : totalsMatch t = true) :
    multiGo (start :: (body ++ t :: rest)) .scan =
      [mkRowMulti sr (pyStrip nm)
        (body.foldl (fun p ln => dimStep ln p.1 p.2) ([], [])).1
        (body.foldl (fun p ln => dimStep ln p.1 p.2) ([], [])).2
        ([], [], [])] ∧
    (mkRowMulti sr (pyStrip nm)
        (body.foldl (fun p ln => dimStep ln p.1 p.2) ([], [])).1
        (body.foldl (fun p ln => dimStep ln p.1 p.2) ([], [])).2
        ([], [], [])).unit_price = [] ∧
    (mkRowMulti sr (pyStrip nm)
        (body.foldl (fun p ln => dimStep ln p.1 p.2) ([], [])).1
        (body.foldl (fun p ln => dimStep ln p.1 p.2) ([], [])).2
        ([], [], [])).amount = [] ∧
    (mkRowMulti sr (pyStrip nm)
        (body.foldl (fun p ln => dimStep ln p.1 p.2) ([], [])).1
        (body.foldl (fun p ln => dimStep ln p.1 p.2) ([], [])).2
        ([], [], [])).qty = ['1'] := by
  refine ⟨?_, rfl, rfl, rfl⟩
  rw [multiGo_scan_cons, if_neg (by simp [hst]), hstart]
  exact multiGo_block_totals body [] [] sr (pyStrip nm) t rest hbody ht

/-- Witness for the amended C1 theorem on a concrete block closed by a
totals line, followed by further lines that are ignored. -/
theorem multiline_block_closed_by_totals_witness :
    multiGo ((("1 Chair").data) :: ([("Good chair").data] ++ (("Sub Total 500").data) ::
        [("2 Desk").data, ("₹ 5 1 5").data])) .scan =
      [mkRowMulti (("1").data) (pyStrip (("Chair").data))
        (([("Good chair").data]).foldl (fun p ln => dimStep ln p.1 p.2) ([], [])).1
        (([("Good chair").data]).foldl (fun p ln => dimStep ln p.1 p.2) ([], [])).2
        ([], [], [])] ∧
    (mkRowMulti (("1").data) (pyStrip (("Chair").data))
        (([("Good chair").data]).foldl (fun p ln => dimStep ln p.1 p.2) ([], [])).1
        (([("Good chair").data]).foldl (fun p ln => dimStep ln p.1 p.2) ([], [])).2
        ([], [], [])).unit_price = [] ∧
    (mkRowMulti (("1").data) (pyStrip (("Chair").data))
        (([("Good chair").data]).foldl (fun p ln => dimStep ln p.1 p.2) ([], [])).1
        (([("Good chair").data]).foldl (fun p ln => dimStep ln p.1 p.2) ([], [])).2
        ([], [], [])).amount = [] ∧
    (mkRowMulti (("1").data) (pyStrip (("Chair").data))
        (([("Good chair").data]).foldl (fun p ln => dimStep ln p.1 p.2) ([], [])).1
        (([("Good chair").data]).foldl (fun p ln => dimStep ln p.1 p.2) ([], [])).2
        ([], [], [])).qty = ['1'] :=
  multiline_block_closed_by_totals (("1 Chair").data) (("1").data) (("Chair").data)
    [("Good chair").data] (("Sub Total 500").data) [("2 Desk").data, ("₹ 5 1 5").data]
    (by decide) (by decide) (by decide) (by decide)

/-- Counterexample to C1 as stated: a block with no price line, closed by
a totals line, IS emitted as a row (with empty price fields and qty "1")
rather than dropped. -/
theorem multiline_totals_block_kept_cx :
    (parseTableFromText (("S.No Specs Price Qty Amount\n1 Chair\nSub Total 500").data)).map
        (fun r => (r.sr_no, r.unit_price, r.amount, r.qty)) =
      [((("1").data), [], [], (("1").data))] := by decide

theorem sepStep_eq (n : Line) (pos : Int) (sep : List Char) :
    sepStep n pos sep =
      if 0 < pyFind (pyUpper sep) (pyUpper n) ∧
          (pos < 0 ∨ pyFind (pyUpper sep) (pyUpper n) < pos)
      then pyFind (pyUpper sep) (pyUpper n) else pos := rfl

theorem sepFold_keeps (n : Line) (seps : List (List Char)) :
    ∀ pos : Int, 0 < pos →
      0 < seps.foldl (sepStep n) pos ∧ seps.foldl (sepStep n) pos ≤ pos := by
  induction seps with
  | nil => intro pos h; exact ⟨h, le_refl _⟩
  | cons sep ss ih =>
      intro pos h
      rw [List.foldl_cons, sepStep_eq]
      by_cases hc : 0 < pyFind (pyUpper sep) (pyUpper n) ∧
          (pos < 0 ∨ pyFind (pyUpper sep) (pyUpper n) < pos)
      · rw [if_pos hc]
        rcases ih _ hc.1 with ⟨h1, h2⟩
        refine ⟨h1, le_trans h2 ?_⟩
        rcases hc.2 with h3 | h3 <;> omega
      · rw [if_neg hc]; exact ih pos h

theorem sepFold_mem (n : Line) (seps : List (List Char)) :
    ∀ pos : Int,
      seps.foldl (sepStep n) pos = pos ∨
        (0 < seps.foldl (sepStep n) pos ∧
          ∃ s ∈ seps, pyFind (pyUpper s) (pyUpper n) = seps.foldl (sepStep n) pos) := by
  induction seps with
  | nil => intro pos; left; rfl
  | cons sep ss ih =>
      intro pos
      rw [List.foldl_cons, sepStep_eq]
      by_cases hc : 0 < pyFind (pyUpper sep) (pyUpper n) ∧
          (pos < 0 ∨ pyFind (pyUpper sep) (pyUpper n) < pos)
      · rw [if_pos hc]
        rcases ih (pyFind (pyUpper sep) (pyUpper n)) with h | ⟨h1, s, hs, hval⟩
        · right
          rw [h]
          exact ⟨hc.1, sep, List.mem_cons_self sep ss, rfl⟩
        · right; exact ⟨h1, s, List.mem_cons_of_mem sep hs, hval⟩
      · rw [if_neg hc]
        rcases ih pos with h | ⟨h1, s, hs, hval⟩
        · left; exact h
        · right; exact ⟨h1, s, List.mem_cons_of_mem sep hs, hval⟩

theorem sepFold_le (n : Line) (seps : List (List Char)) :
    ∀ pos : Int, (pos = -1 ∨ 0 < pos) →
      ∀ s ∈ seps, 0 < pyFind (pyUpper s) (pyUpper n) →
        0 < seps.foldl (sepStep n) pos ∧
        seps.foldl (sepStep n) pos ≤ pyFind (pyUpper s) (pyUpper n) := by
  induction seps with
  | nil => intro pos _ s hs; cases hs
  | cons sep ss ih =>
      intro pos hpos s hs hp
      rw [List.foldl_cons, sepStep_eq]
      rcases List.mem_cons.mp hs with rfl | hs2
      · by_cases hc : 0 < pyFind (pyUpper s) (pyUpper n) ∧
            (pos < 0 ∨ pyFind (pyUpper s) (pyUpper n) < pos)
        · rw [if_pos hc]
          exact sepFold_keeps n ss _ hp
        · rw [if_neg hc]
          have hpos2 : 0 < pos := by
            rcases hpos with h | h
            · exact absurd ⟨hp, Or.inl (by omega)⟩ hc
            · exact h
          have hle : pos ≤ pyFind (pyUpper s) (pyUpper n) := by
            by_contra hlt
            exact hc ⟨hp, Or.inr (by omega)⟩
          rcases sepFold_keeps n ss pos hpos2 with ⟨h1, h2⟩
          exact ⟨h1, le_trans h2 hle⟩
      · by_cases hc : 0 < pyFind (pyUpper sep) (pyUpper n) ∧
            (pos < 0 ∨ pyFind (pyUpper sep) (pyUpper n) < pos)
        · rw [if_pos hc]; exact ih _ (Or.inr hc.1) s hs2 hp
        · rw [if_neg hc]; exact ih pos hpos s hs2 hp

/-- Amended C8: the dimension-line split position is the EARLIEST
occurrence among the source's space-surrounded separator tokens
(" Base ", " Top in ", " Finish ", " construction ", " Internal "),
compared case-insensitively and accepted only at a positive index: the
computed position is −1 or the positive find-position of some separator,
and it is a lower bound of every separator's positive find-position.  A
dimension line with no such occurrence keeps the whole line as
dimensions.  On the spec's example line the block parser yields
dimensions `900 Dia X 400 H` with description fragment
`Base in HDMR ply`. -/
theorem dim_split_at_earliest_separator :
    (∀ u : Line,
      (earliestSep u = -1 ∨
        (0 < earliestSep u ∧
          ∃ s ∈ sepList, pyFind (pyUpper s) (pyUpper u) = earliestSep u)) ∧
      (∀ s ∈ sepList, 0 < pyFind (pyUpper s) (pyUpper u) →
        0 < earliestSep u ∧ earliestSep u ≤ pyFind (pyUpper s) (pyUpper u))) ∧
    (parseTableFromText
        (("S.No Specs Price Qty Amount\n1 Table\n900 Dia X 400 H Base in HDMR ply\n₹ 5 1 5").data)).map
        (fun r => (r.dimensions, r.description)) =
      [((("900 Dia X 400 H").data), some (("Base in HDMR ply").data))] := by
  constructor
  · intro u
    constructor
    · rcases sepFold_mem u sepList (-1) with h | h
      · left; exact h
      · right; exact h
    · intro s hs hp
      exact sepFold_le u sepList (-1) (Or.inl rfl) s hs hp
  · decide

/-- Witness for the separator-position theorem: on a concrete line the
position is positive and bounded by the find-position of `" Base "`. -/
theorem dim_split_at_earliest_separator_witness :
    0 < earliestSep (("10 X 20 Base in ply").data) ∧
    earliestSep (("10 X 20 Base in ply").data) ≤
      pyFind (pyUpper ((" Base ").data)) (pyUpper (("10 X 20 Base in ply").data)) :=
  (dim_split_at_earliest_separator.1 (("10 X 20 Base in ply").data)).2
    ((" Base ").data) (by decide) (by decide)

/-- Counterexample to C8 as stated: `100 X 200 Base` is a dimension
pattern line containing the keyword `Base`, yet it is not split — the
whole line becomes the dimensions field and no description fragment is
produced (the source separators carry surrounding spaces, and a trailing
`Base` has no trailing space). -/
theorem dim_keyword_not_split_cx :
    containsSub (("Base").data) (("100 X 200 Base").data) = true ∧
    (dimMatchStart (("100 X 200 Base").data) || hasDimPat (("100 X 200 Base").data)) = true ∧
    (parseTableFromText
        (("S.No Specs Price Qty Amount\n1 Table\n100 X 200 Base\n₹ 5 1 5").data)).map
        (fun r => (r.dimensions, r.description)) =
      [((("100 X 200 Base").data), some [])] ∧
    (("100 X 200 Base").data) ≠ (("100 X 200").data) := by decide


theorem mem_pyStrip (s : List Char) (c : Char) (h : c ∈ pyStrip s) : c ∈ s := by
  unfold pyStrip at h
  rw [List.mem_reverse] at h
  have h1 := (List.dropWhile_suffix isPySpace).sublist.subset h
  rw [List.mem_reverse] at h1
  exact (List.dropWhile_suffix isPySpace).sublist.subset h1

theorem pyMantissa_nonneg (cs : List Char) (q : ℚ) (h : pyMantissa cs = some q) :
    0 ≤ q := by
  unfold pyMantissa at h
  split_ifs at h
  · cases h
    exact Rat.mkRat_nonneg (Int.natCast_nonneg _) _
  · cases h
    apply Rat.mkRat_nonneg
    positivity

theorem pyFloat?_eq_mantissa (c : Char) (rest : List Char) (h1 : c ≠ '-') (h2 : c ≠ '+') :
    pyFloat? (c :: rest) = pyMantissa (c :: rest) := by
  unfold pyFloat?
  split
  · next heq => exact absurd (List.cons.inj heq).1 h1
  · next heq => exact absurd (List.cons.inj heq).1 h2
  · rfl

theorem pyFloat?_nonneg (cs : List Char) (hnm : '-' ∉ cs) (q : ℚ)
    (h : pyFloat? cs = some q) : 0 ≤ q := by
  rcases cs with _ | ⟨c, rest⟩
  · have e : pyFloat? ([] : List Char) = pyMantissa [] := rfl
    rw [e] at h
    exact pyMantissa_nonneg _ _ h
  · by_cases h1 : c = '-'
    · subst h1; exact absurd (List.mem_cons_self _ _) hnm
    · by_cases h2 : c = '+'
      · subst h2
        have e : pyFloat? ('+' :: rest) = pyMantissa rest := rfl
        rw [e] at h
        exact pyMantissa_nonneg _ _ h
      · rw [pyFloat?_eq_mantissa c rest h1 h2] at h
        exact pyMantissa_nonneg _ _ h

theorem safeFloat_nonneg (s : List Char) (hs : '-' ∉ s) : 0 ≤ safeFloat s := by
  unfold safeFloat
  rcases hf : pyFloat? ((pyStrip s).filter (fun c => c != ',')) with _ | q
  · simp
  · simp only [Option.getD_some]
    refine pyFloat?_nonneg _ ?_ q hf
    intro hmem
    exact hs (mem_pyStrip _ _ (List.mem_of_mem_filter hmem))

theorem pyTruncInt_nonneg (q : ℚ) (h : 0 ≤ q) : 0 ≤ pyTruncInt q := by
  unfold pyTruncInt
  rw [if_pos h, ← (Rat.floor_def).trans (Rat.floor_def' q).symm]
  exact Int.floor_nonneg.mpr h

theorem getLast?_mem {α : Type} (l : List α) (a : α) (h : l.getLast? = some a) :
    a ∈ l := by
  cases l with
  | nil => cases h
  | cons x xs =>
      rw [List.getLast?_eq_getLast_of_ne_nil (by simp)] at h
      cases h
      exact List.getLast_mem _

theorem runTokensAux_chars (p : Char → Bool) (cs : List Char) :
    ∀ t ∈ (runTokensAux p cs).1, ∀ c ∈ t, p c = true := by
  induction cs with
  | nil => intro t ht; cases ht
  | cons x cs ih =>
      intro t ht c hc
      have e : runTokensAux p (x :: cs) =
          if p x then pushTok x (runTokensAux p cs)
          else ((runTokensAux p cs).1, false) := rfl
      rw [e] at ht
      by_cases hp : p x = true
      · rw [if_pos hp] at ht
        rcases hr : runTokensAux p cs with ⟨ts, flag⟩
        rw [hr] at ht
        have ih2 := ih
        rw [hr] at ih2
        cases flag with
        | false =>
            rw [show pushTok x (ts, false) = ([x] :: ts, true) from rfl] at ht
            rcases List.mem_cons.mp ht with rfl | htl
            · rw [List.mem_singleton.mp hc]; exact hp
            · exact ih2 t htl c hc
        | true =>
            cases ts with
            | nil =>
                rw [show pushTok x (([] : List (List Char)), true) = ([[x]], true) from rfl] at ht
                rw [List.mem_singleton.mp ht] at hc
                rw [List.mem_singleton.mp hc]; exact hp
            | cons t0 ts2 =>
                rw [show pushTok x (t0 :: ts2, true) = ((x :: t0) :: ts2, true) from rfl] at ht
                rcases List.mem_cons.mp ht with rfl | htl
                · rcases List.mem_cons.mp hc with rfl | hc2
                  · exact hp
                  · exact ih2 t0 (List.mem_cons_self t0 ts2) c hc2
                · exact ih2 t (List.mem_cons_of_mem t0 htl) c hc
      · rw [if_neg hp] at ht
        exact ih t ht c hc

theorem runTokens_chars (p : Char → Bool) (cs : List Char) :
    ∀ t ∈ runTokens p cs, ∀ c ∈ t, p c = true :=
  runTokensAux_chars p cs

theorem totChar_of_dc (c : Char) (h : isDigitComma c = true) : isTotChar c = true := by
  simp only [isDigitComma, Bool.or_eq_true] at h
  simp only [isTotChar, Bool.or_eq_true]
  tauto

theorem totTokensGo_chars (cs : List Char) :
    ∀ (st : Option (List Char × Bool)),
      (∀ t b, st = some (t, b) → ∀ c ∈ t, isTotChar c = true) →
      ∀ tok ∈ totTokensGo cs st, ∀ c ∈ tok, isTotChar c = true := by
  induction cs with
  | nil =>
      intro st hst tok htok c hc
      rcases st with _ | ⟨t, b⟩
      · cases htok
      · rw [show totTokensGo [] (some (t, b)) = [t.reverse] from rfl] at htok
        rw [List.mem_singleton.mp htok] at hc
        exact hst t b rfl c (List.mem_reverse.mp hc)
  | cons x cs ih =>
      intro st hst tok htok c hc
      rcases st with _ | ⟨t, b⟩
      · rw [show totTokensGo (x :: cs) none =
            (if isDigitComma x then totTokensGo cs (some ([x], false))
             else totTokensGo cs none) from rfl] at htok
        by_cases hx : isDigitComma x = true
        · rw [if_pos hx] at htok
          refine ih _ ?_ tok htok c hc
          intro t2 b2 heq c2 hc2
          cases heq
          rw [List.mem_singleton.mp hc2]
          exact totChar_of_dc x hx
        · rw [if_neg hx] at htok
          refine ih _ ?_ tok htok c hc
          intro t2 b2 heq
          cases heq
      · have ht0 : ∀ c2 ∈ t, isTotChar c2 = true := hst t b rfl
        cases b with
        | false =>
            rw [show totTokensGo (x :: cs) (some (t, false)) =
                (if isDigitComma x then totTokensGo cs (some (x :: t, false))
                 else if x = '.' then totTokensGo cs (some (x :: t, true))
                 else t.reverse :: totTokensGo cs none) from rfl] at htok
            by_cases h1 : isDigitComma x = true
            · rw [if_pos h1] at htok
              refine ih _ ?_ tok htok c hc
              intro t2 b2 heq c2 hc2
              cases heq
              rcases List.mem_cons.mp hc2 with rfl | hmem
              · exact totChar_of_dc _ h1
              · exact ht0 _ hmem
            · rw [if_neg h1] at htok
              by_cases h2 : x = '.'
              · rw [if_pos h2] at htok
                refine ih _ ?_ tok htok c hc
                intro t2 b2 heq c2 hc2
                cases heq
                rcases List.mem_cons.mp hc2 with rfl | hmem
                · rw [h2]; decide
                · exact ht0 _ hmem
              · rw [if_neg h2] at htok
                rcases List.mem_cons.mp htok with rfl | hmem
                · exact ht0 _ (List.mem_reverse.mp hc)
                · refine ih _ ?_ tok hmem c hc
                  intro t2 b2 heq
                  cases heq
        | true =>
            rw [show totTokensGo (x :: cs) (some (t, true)) =
                (if x.isDigit then totTokensGo cs (some (x :: t, true))
                 else if isDigitComma x then t.reverse :: totTokensGo cs (some ([x], false))
                 else t.reverse :: totTokensGo cs none) from rfl] at htok
            by_cases h1 : x.isDigit = true
            · rw [if_pos h1] at htok
              refine ih _ ?_ tok htok c hc
              intro t2 b2 heq c2 hc2
              cases heq
              rcases List.mem_cons.mp hc2 with rfl | hmem
              · simp [isTotChar, h1]
              · exact ht0 _ hmem
            · rw [if_neg h1] at htok
              by_cases h2 : isDigitComma x = true
              · rw [if_pos h2] at htok
                rcases List.mem_cons.mp htok with rfl | hmem
                · exact ht0 _ (List.mem_reverse.mp hc)
                · refine ih _ ?_ tok hmem c hc
                  intro t2 b2 heq c2 hc2
                  cases heq
                  rw [List.mem_singleton.mp hc2]
                  exact totChar_of_dc _ h2
              · rw [if_neg h2] at htok
                rcases List.mem_cons.mp htok with rfl | hmem
                · exact ht0 _ (List.mem_reverse.mp hc)
                · refine ih _ ?_ tok hmem c hc
                  intro t2 b2 heq
                  cases heq

theorem totTokens_chars (line : Line) :
    ∀ tok ∈ totTokens line, ∀ c ∈ tok, isTotChar c = true :=
  totTokensGo_chars line none (fun _ _ h => by cases h)

theorem lastTok_nonneg (line : Line) (v : ℚ)
    (h : ((totTokens line).getLast?).map safeFloat = some v) : 0 ≤ v := by
  rcases hg : (totTokens line).getLast? with _ | t
  · rw [hg] at h; cases h
  · rw [hg] at h
    simp only [Option.map_some'] at h
    cases h
    apply safeFloat_nonneg
    intro hm
    have := totTokens_chars line t (getLast?_mem _ _ hg) '-' hm
    exact absurd this (by decide)

theorem subCapture_nonneg (line : Line) (v : ℚ) (h : subCapture line = some v) :
    0 ≤ v := by
  unfold subCapture at h
  split_ifs at h
  exact lastTok_nonneg line v h

theorem taxCapture_nonneg (line : Line) (v : ℚ) (h : taxCapture line = some v) :
    0 ≤ v := by
  unfold taxCapture at h
  split_ifs at h
  exact lastTok_nonneg line v h

theorem grandCapture_nonneg (line : Line) (v : ℚ) (h : grandCapture line = some v) :
    0 ≤ v := by
  unfold grandCapture at h
  split_ifs at h
  exact lastTok_nonneg line v h

theorem lastTotSpec_some (f : Line → Option ℚ) (lns : List Line) :
    ∀ v, lastTotSpec f lns = some v → ∃ l ∈ lns, f l = some v := by
  induction lns with
  | nil => intro v h; cases h
  | cons l rest ih =>
      intro v h
      rw [show lastTotSpec f (l :: rest) =
          (match lastTotSpec f rest with
           | some w => some w
           | none => f l) from rfl] at h
      rcases hr : lastTotSpec f rest with _ | w
      · rw [hr] at h
        exact ⟨l, List.mem_cons_self _ _, h⟩
      · rw [hr] at h
        cases h
        obtain ⟨l2, hmem, hcap⟩ := ih _ hr
        exact ⟨l2, List.mem_cons_of_mem _ hmem, hcap⟩

theorem parseTotals_nonneg (text : List Char) :
    0 ≤ (parseTotals text).subtotal ∧ 0 ≤ (parseTotals text).tax ∧
    0 ≤ (parseTotals text).grand_total := by
  unfold parseTotals
  rw [totalsFold]
  refine ⟨?_, ?_, ?_⟩
  · rcases hl : lastTotSpec subCapture (splitLines text) with _ | v
    · simp
    · simp only [Option.getD_some]
      obtain ⟨l, _, hcap⟩ := lastTotSpec_some _ _ v hl
      exact subCapture_nonneg l v hcap
  · rcases hl : lastTotSpec taxCapture (splitLines text) with _ | v
    · simp
    · simp only [Option.getD_some]
      obtain ⟨l, _, hcap⟩ := lastTotSpec_some _ _ v hl
      exact taxCapture_nonneg l v hcap
  · rcases hl : lastTotSpec grandCapture (splitLines text) with _ | v
    · simp
    · simp only [Option.getD_some]
      obtain ⟨l, _, hcap⟩ := lastTotSpec_some _ _ v hl
      exact grandCapture_nonneg l v hcap


theorem parsePriceLine_chars (line : Line) :
    (∀ c ∈ (parsePriceLine line).1, isDigitDot c = true) ∧
    (∀ c ∈ (parsePriceLine line).2.1, isDigitDot c = true) ∧
    (∀ c ∈ (parsePriceLine line).2.2, isDigitDot c = true) := by
  have htok := runTokens_chars isDigitDot (priceClean line)
  unfold parsePriceLine
  rcases h : runTokens isDigitDot (priceClean line) with _ | ⟨a, rest⟩
  · simp only [h] at htok ⊢
    exact ⟨(by intro c hc; cases hc), (by intro c hc; cases hc),
      (by intro c hc; cases hc)⟩
  · rcases rest with _ | ⟨b, rest2⟩
    · simp only [h] at htok ⊢
      refine ⟨htok a (by simp), ?_, htok a (by simp)⟩
      intro c hc
      rw [List.mem_singleton.mp hc]
      decide
    · rcases rest2 with _ | ⟨c0, t⟩
      · simp only [h] at htok ⊢
        exact ⟨htok a (by simp), htok b (by simp), htok b (by simp)⟩
      · simp only [h] at htok ⊢
        exact ⟨htok a (by simp), htok b (by simp), htok c0 (by simp)⟩

theorem mkRowMulti_priceOk (sr nm dims : List Char) (desc : List (List Char))
    (price : List Char × List Char × List Char)
    (h1 : ∀ c ∈ price.1, isDigitDot c = true)
    (h2 : ∀ c ∈ price.2.1, isDigitDot c = true)
    (h3 : ∀ c ∈ price.2.2, isDigitDot c = true) :
    rowPriceOk (mkRowMulti sr nm dims desc price) := by
  refine ⟨?_, h1, h3⟩
  show ∀ c ∈ (if price.2.1.isEmpty then ['1'] else price.2.1), isDigitDot c = true
  by_cases he : price.2.1.isEmpty = true
  · rw [if_pos he]
    intro c hc
    rw [List.mem_singleton.mp hc]
    decide
  · rw [if_neg he]
    exact h2

theorem multiGo_rows_priceOk (lns : List Line) :
    ∀ (st : MState), ∀ r ∈ multiGo lns st, rowPriceOk r := by
  induction lns with
  | nil =>
      intro st r hr
      cases st with
      | scan => cases hr
      | inBlock sr nm dims desc =>
          rw [show multiGo [] (.inBlock sr nm dims desc) =
              [mkRowMulti sr nm dims desc ([], [], [])] from rfl] at hr
          rw [List.mem_singleton.mp hr]
          exact mkRowMulti_priceOk sr nm dims desc ([], [], [])
            (by intro c hc; cases hc) (by intro c hc; cases hc)
            (by intro c hc; cases hc)
  | cons ln rest ih =>
      intro st r hr
      cases st with
      | scan =>
          rw [multiGo_scan_cons] at hr
          split at hr
          · cases hr
          · split at hr
            · exact ih _ r hr
            · exact ih _ r hr
      | inBlock sr nm dims desc =>
          rw [multiGo_inBlock_cons] at hr
          split at hr
          · rw [List.mem_singleton.mp hr]
            exact mkRowMulti_priceOk sr nm dims desc ([], [], [])
              (by intro c hc; cases hc) (by intro c hc; cases hc)
              (by intro c hc; cases hc)
          · split at hr
            · rcases List.mem_cons.mp hr with rfl | hmem
              · obtain ⟨p1, p2, p3⟩ := parsePriceLine_chars ln
                exact mkRowMulti_priceOk _ _ _ _ _ p1 p2 p3
              · exact ih _ r hmem
            · exact ih _ r hr

theorem usesMultiline_table (text : List Char) (h : usesMultiline text = true) :
    ∃ i, parseTableFromText text = multiGo ((tableLines text).drop (i + 1)) .scan := by
  unfold usesMultiline at h
  rcases hidx : headerIdx? (tableLines text) with _ | i
  · rw [hidx] at h; cases h
  · rw [hidx] at h
    dsimp only at h
    refine ⟨i, ?_⟩
    simp only [parseTableFromText]
    rw [hidx]
    dsimp only
    rw [if_pos h]

theorem buildProductsGo_mem (imgs : List Img) (off : Nat) (rows : List RowD) :
    ∀ (i : Nat) (p : ProductD), p ∈ buildProductsGo imgs off i rows →
      ∃ j row, row ∈ rows ∧ p = mkProduct j row (rowImages imgs (off + j)) := by
  induction rows with
  | nil => intro i p hp; cases hp
  | cons row rest ih =>
      intro i p hp
      rw [show buildProductsGo imgs off i (row :: rest) =
          mkProduct i row (rowImages imgs (off + i)) ::
            buildProductsGo imgs off (i + 1) rest from rfl] at hp
      rcases List.mem_cons.mp hp with rfl | hp2
      · exact ⟨i, row, List.mem_cons_self _ _, rfl⟩
      · obtain ⟨j, row2, hmem, heq⟩ := ih (i + 1) p hp2
        exact ⟨j, row2, List.mem_cons_of_mem _ hmem, heq⟩

theorem noMinus_of_digitDot (s : List Char) (h : ∀ c ∈ s, isDigitDot c = true) :
    '-' ∉ s := by
  intro hm
  exact absurd (h _ hm) (by decide)

theorem mkProduct_nonneg (j : Nat) (row : RowD) (pimgs : List Img)
    (hok : rowPriceOk row) :
    0 ≤ (mkProduct j row pimgs).qty ∧ 0 ≤ (mkProduct j row pimgs).unit_price ∧
    0 ≤ (mkProduct j row pimgs).amount := by
  obtain ⟨hq, hu, ha⟩ := hok
  exact ⟨pyTruncInt_nonneg _ (safeFloat_nonneg _ (noMinus_of_digitDot _ hq)),
    safeFloat_nonneg _ (noMinus_of_digitDot _ hu),
    safeFloat_nonneg _ (noMinus_of_digitDot _ ha)⟩

/-- Amended C3: every Summary field produced by the pipeline is ≥ 0 (the
totals tokens contain no sign character, and tokens that fail to parse
coerce to 0), and every ItemRecord produced via the MULTI-LINE block
strategy has qty ≥ 0, unit_price ≥ 0 and amount ≥ 0 (its price tokens are
digit/dot strings).  The blanket claim fails for the single-line
strategy, where a cell such as `-2` parses to a negative field — see
`negative_qty_cx`. -/
theorem numeric_fields_nonneg :
    (∀ (text : List Char) (imgs : List Img),
      0 ≤ (parsePipeline text imgs).summary.subtotal ∧
      0 ≤ (parsePipeline text imgs).summary.tax ∧
      0 ≤ (parsePipeline text imgs).summary.grand_total) ∧
    (∀ (text : List Char) (imgs : List Img),
      usesMultiline text = true →
      ∀ p ∈ (parsePipeline text imgs).products,
        0 ≤ p.qty ∧ 0 ≤ p.unit_price ∧ 0 ≤ p.amount) := by
  constructor
  · intro text imgs
    exact parseTotals_nonneg text
  · intro text imgs hml p hp
    obtain ⟨i, htab⟩ := usesMultiline_table text hml
    have hp2 : p ∈ buildProductsGo imgs
        (imageOffset imgs.length (parseTableFromText text).length) 0
        (parseTableFromText text) := hp
    obtain ⟨j, row, hrow, heq⟩ := buildProductsGo_mem imgs _ (parseTableFromText text) 0 p hp2
    subst heq
    refine mkProduct_nonneg j row _ ?_
    rw [htab] at hrow
    exact multiGo_rows_priceOk _ _ row hrow

/-- Witness: on a concrete multi-line table the emitted product has
non-negative qty, unit price and amount. -/
theorem numeric_fields_nonneg_witness :
    0 ≤ ((⟨1, ("Sofa").data, [], [], [], [], [], 1, 25000, 25000, []⟩ : ProductD)).qty ∧
    0 ≤ ((⟨1, ("Sofa").data, [], [], [], [], [], 1, 25000, 25000, []⟩ : ProductD)).unit_price ∧
    0 ≤ ((⟨1, ("Sofa").data, [], [], [], [], [], 1, 25000, 25000, []⟩ : ProductD)).amount :=
  numeric_fields_nonneg.2
    (("S.No Specs Price Qty Amount\n1 Sofa\n₹ 25,000 1 ₹25,000").data) []
    (by decide) _ (by decide)

/-- Counterexample to C3 as stated: a single-line row whose qty cell is
`-2` yields an ItemRecord with qty = −2 < 0. -/
theorem negative_qty_cx :
    (parsePipeline (("S.No Name\n1  A  B  C  D  E  -2").data) []).products.map
        (fun p => p.qty) = [-2] ∧
    ¬(0 : Int) ≤ -2 := by decide

end PdfPipeline
